import Mathlib

/-!
Verification of `pg_podcast_toolkit.podcast_tools` (Really-Bad-Apps/pg-podcast-toolkit).

The module has four functions wrapping lxml and requests:
`load_podcast_file_into_etree`, `load_podcast_str_into_etree`,
`retreive_podcast_xml`, and `parse_enclosure_map_from_etree` (defined twice;
the second definition shadows the first).  We embed the XML document model,
Python `dict` semantics, Python `int()` string parsing, and the four functions,
then prove the specified properties.
-/

set_option autoImplicit false

namespace PodcastTools

/-- An XML element as exposed by lxml: a tag, the text content (`None` when the
element has no text), an attribute map, and the list of child elements in
document order. -/
inductive Element where
  | mk (tag : String) (text : Option String) (attrib : List (String × String))
       (children : List Element)

def Element.tag : Element → String
  | .mk t _ _ _ => t

def Element.text : Element → Option String
  | .mk _ x _ _ => x

def Element.attrib : Element → List (String × String)
  | .mk _ _ a _ => a

def Element.children : Element → List Element
  | .mk _ _ _ cs => cs

/-- `element.find(tag)` / `element.find('./tag')`: the first direct child with
the given tag, if any. -/
def find_child (e : Element) (t : String) : Option Element :=
  e.children.find? (fun c => c.tag = t)

/-- `element.attrib.get(key)`: attribute lookup returning `None` when the
attribute is absent. -/
def attribGet (e : Element) (k : String) : Option String :=
  (e.attrib.find? (fun p => p.1 = k)).map (fun p => p.2)

mutual

/-- `element.iter(tag)` before filtering: the element itself followed by all
its descendants, depth-first in document order. -/
def selfAndDesc : Element → List Element
  | .mk t x a cs => .mk t x a cs :: descList cs

/-- Depth-first document-order traversal of a forest of elements. -/
def descList : List Element → List Element
  | [] => []
  | c :: cs => selfAndDesc c ++ descList cs

end

/-- `element.iterfind('.//tag')` before filtering: all strict descendants of
the element, depth-first in document order (the element itself is excluded). -/
def strictDesc (e : Element) : List Element :=
  descList e.children

/- Python `dict` semantics on string keys: insertion preserves the position of
an existing key and appends a new key at the end. -/

def dictInsert {α : Type} (m : List (String × α)) (k : String) (v : α) :
    List (String × α) :=
  if m.any (fun p => p.1 = k) then
    m.map (fun p => if p.1 = k then (k, v) else p)
  else
    m ++ [(k, v)]

def dictGet {α : Type} (m : List (String × α)) (k : String) : Option α :=
  (m.find? (fun p => p.1 = k)).map (fun p => p.2)

def dictKeys {α : Type} (m : List (String × α)) : List String :=
  m.map (fun p => p.1)

/- Python `int()` applied to a string: optional surrounding whitespace, an
optional sign, then decimal digits possibly separated by single underscores.
A string not of that shape raises `ValueError`, which we model as `none`. -/

def isPyDigit (c : Char) : Bool :=
  '0' ≤ c && c ≤ '9'

def isPySpace (c : Char) : Bool :=
  c = ' ' || c = '\t' || c = '\n' || c = '\r' || c = '\x0b' || c = '\x0c'

/-- After an initial digit: digits optionally separated by single underscores,
each underscore followed by a digit. -/
def digitsTail : List Char → Bool
  | [] => true
  | '_' :: [] => false
  | '_' :: c :: cs => isPyDigit c && digitsTail cs
  | c :: cs => isPyDigit c && digitsTail cs

/-- A non-empty digit string with optional single underscores between digits. -/
def digitsOk : List Char → Bool
  | [] => false
  | c :: cs => isPyDigit c && digitsTail cs

def digitsVal : Nat → List Char → Nat
  | acc, [] => acc
  | acc, '_' :: cs => digitsVal acc cs
  | acc, c :: cs => digitsVal (acc * 10 + (c.toNat - '0'.toNat)) cs

/-- `int(s)` for a Python string `s`: `some n` on success, `none` when Python
would raise `ValueError`. -/
def pyInt (s : String) : Option Int :=
  let cs := ((s.toList.dropWhile isPySpace).reverse.dropWhile isPySpace).reverse
  match cs with
  | '+' :: rest => if digitsOk rest then some (Int.ofNat (digitsVal 0 rest)) else none
  | '-' :: rest => if digitsOk rest then some (-(Int.ofNat (digitsVal 0 rest))) else none
  | rest => if digitsOk rest then some (Int.ofNat (digitsVal 0 rest)) else none

/-- Modelled from the spec: the source imports `MediaResource` from
`pg_podcast_toolkit.media_resource`, a file not present in the sources; §3 of
the specification lists its fields (guid, url, length, media_type, and the
three reserved placeholder fields). -/
structure MediaResource where
  guid : String
  url : Option String
  length : Option Int
  media_type : Option String
  hash_ipfs : Option String
  file_name : Option String
  local_path : Option String
deriving Repr, DecidableEq

/-- The length computation of the second `parse_enclosure_map_from_etree`:
`int(enclosure.attrib.get('length', 0)) if enclosure.attrib.get('length') else None`.
A present, non-empty, non-numeric value raises `ValueError`. -/
def parseLengthAttr (enc : Element) : Except String (Option Int) :=
  match attribGet enc "length" with
  | some s =>
      if s = "" then .ok none
      else
        match pyInt s with
        | some n => .ok (some n)
        | none => .error "ValueError"
  | none => .ok none

/-- `item.find('./guid').text if item.find('./guid') is not None else None`. -/
def itemGuid (item : Element) : Option String :=
  (find_child item "guid").bind Element.text

/-- The loop body of the second `parse_enclosure_map_from_etree` for one
`item` element: `.ok none` when the item is skipped, `.ok (some (guid, r))`
when a `MediaResource` is built, `.error` when `int()` raises. -/
def extractItem (item : Element) : Except String (Option (String × MediaResource)) :=
  let guid := itemGuid item
  let enclosure := find_child item "enclosure"
  match guid, enclosure with
  | some g, some enc =>
      if g = "" then .ok none
      else
        match parseLengthAttr enc with
        | .error e => .error e
        | .ok len =>
            .ok (some (g,
              { guid := g
                url := attribGet enc "url"
                length := len
                media_type := attribGet enc "type"
                hash_ipfs := none
                file_name := none
                local_path := none }))
  | _, _ => .ok none

/-- One fold step of the second `parse_enclosure_map_from_etree`. -/
def extractStep (m : List (String × MediaResource)) (item : Element) :
    Except String (List (String × MediaResource)) :=
  match extractItem item with
  | .error e => .error e
  | .ok none => .ok m
  | .ok (some (g, r)) => .ok (dictInsert m g r)

/-- The item sequence visited by `podcast_etree.iterfind('.//item')`: all
strict descendants tagged `item`, in document order. -/
def itemsOf (root : Element) : List Element :=
  (strictDesc root).filter (fun e => e.tag = "item")

/-- The second (shadowing) definition of `parse_enclosure_map_from_etree`:
iterates `podcast_etree.iterfind('.//item')` and maps each indexable item's
GUID to a `MediaResource`.  An uncaught `ValueError` from `int()` aborts the
whole call, modelled by `.error`. -/
def parse_enclosure_map_from_etree (root : Element) :
    Except String (List (String × MediaResource)) :=
  (itemsOf root).foldlM extractStep []

/-- One fold step of the first `parse_enclosure_map_from_etree`. -/
def extractStepV1 (m : List (String × Option String)) (item : Element) :
    List (String × Option String) :=
  match itemGuid item, find_child item "enclosure" with
  | some g, some enc => if g = "" then m else dictInsert m g (attribGet enc "url")
  | _, _ => m

/-- The first definition of `parse_enclosure_map_from_etree` (shadowed by the
second): iterates `podcast_etree.iter('item')` and maps each indexable item's
GUID to the enclosure's `url` attribute. -/
def parse_enclosure_map_from_etree_v1 (root : Element) :
    List (String × Option String) :=
  ((selfAndDesc root).filter (fun e => e.tag = "item")).foldl extractStepV1 []

/-- Modelled from the spec: the XML parser (lxml) is an external collaborator;
its parse-from-string operation is taken as a parameter, and the file system is
a map from paths to file contents.  `load_podcast_file_into_etree` opens the
file and parses its contents. -/
def load_podcast_file_into_etree (xmlParse : String → Element)
    (fileContents : String → String) (file_path : String) : Element :=
  xmlParse (fileContents file_path)

/-- Modelled from the spec: `load_podcast_str_into_etree` parses the given
string with the same external XML parser. -/
def load_podcast_str_into_etree (xmlParse : String → Element)
    (podcast_str : String) : Element :=
  xmlParse podcast_str

/-- Modelled from the spec: the HTTP client (requests) is an external
collaborator; a delivered response has a status code and a text body. -/
structure Response where
  status_code : Nat
  text : String

/-- `response.raise_for_status()`: raises `HTTPError` exactly when the status
code is a 4xx client error or a 5xx server error. -/
def raise_for_status (r : Response) : Except String Unit :=
  if 400 ≤ r.status_code ∧ r.status_code < 600 then .error "HTTPError" else .ok ()

/-- `retreive_podcast_xml`: perform the GET, raise for a failure status, and
otherwise return the response body text.  The HTTP client is passed as the
function `get` from URLs to delivered responses. -/
def retreive_podcast_xml (get : String → Response) (url : String) :
    Except String String :=
  let response := get url
  match raise_for_status response with
  | .error e => .error e
  | .ok _ => .ok response.text

/-! ### Derived notions used by the specification statements -/

/-- An item is indexable under GUID `g` when it has a direct `guid` child with
non-empty text `g` and a direct `enclosure` child: exactly the items for which
the second definition adds an entry (or raises on a malformed length). -/
def indexable (item : Element) (g : String) : Prop :=
  itemGuid item = some g ∧ g ≠ "" ∧ (find_child item "enclosure").isSome

/-- The `MediaResource` the second definition constructs from enclosure `enc`
with parsed length `len` under GUID `g`. -/
def builtResource (g : String) (enc : Element) (len : Option Int) : MediaResource :=
  { guid := g
    url := attribGet enc "url"
    length := len
    media_type := attribGet enc "type"
    hash_ipfs := none
    file_name := none
    local_path := none }

/-- The per-GUID view of one loop step: the accumulated entry for `g` after
visiting `item`. -/
def updFor (g : String) (acc : Option MediaResource) (item : Element) :
    Option MediaResource :=
  match extractItem item with
  | .ok (some (g', r)) => if g' = g then some r else acc
  | _ => acc

/-- The entry `item` would contribute under key `g`: `some r` exactly when the
item extracts successfully to GUID `g` with resource `r`. -/
def extractedFor (g : String) (item : Element) : Option MediaResource :=
  match extractItem item with
  | .ok (some (g', r)) => if g' = g then some r else none
  | _ => none

/-! ### Concrete feed documents used as test inputs -/

def guidEl (g : String) : Element := .mk "guid" (some g) [] []

def encEl (attrs : List (String × String)) : Element := .mk "enclosure" none attrs []

def itemEl (cs : List Element) : Element := .mk "item" none [] cs

def feedOf (items : List Element) : Element :=
  .mk "rss" none [] [.mk "channel" none [] items]

def encOne : Element :=
  encEl [("url", "http://x/a.mp3"), ("length", "100"), ("type", "audio/mpeg")]

def itemOne : Element := itemEl [guidEl "ep1", encOne]

def docOne : Element := feedOf [itemOne]

def mrOne : MediaResource :=
  { guid := "ep1", url := some "http://x/a.mp3", length := some 100,
    media_type := some "audio/mpeg", hash_ipfs := none, file_name := none,
    local_path := none }

def encZero : Element := encEl [("url", "u"), ("length", "0")]

def itemZero : Element := itemEl [guidEl "g", encZero]

def docZero : Element := feedOf [itemZero]

def docBadLength : Element :=
  feedOf [itemEl [guidEl "g", encEl [("url", "u"), ("length", "not-a-number")]]]

def encNoUrl : Element := encEl [("length", "5")]

def itemNoUrl : Element := itemEl [guidEl "g", encNoUrl]

def docNoUrl : Element := feedOf [itemNoUrl]

def encNoLen : Element := encEl [("url", "u"), ("type", "audio/mpeg")]

def itemNoLen : Element := itemEl [guidEl "g", encNoLen]

def enc12345 : Element := encEl [("url", "u"), ("length", "12345")]

def item12345 : Element := itemEl [guidEl "g", enc12345]

def docRootItem : Element := itemEl [guidEl "g", encEl [("url", "u")]]

def docDup : Element :=
  feedOf [itemEl [guidEl "g", encEl [("url", "u1")]],
          itemEl [guidEl "g", encEl [("url", "u2")]]]

def mrDup2 : MediaResource :=
  { guid := "g", url := some "u2", length := none, media_type := none,
    hash_ipfs := none, file_name := none, local_path := none }

def mrNoUrl : MediaResource :=
  { guid := "g", url := none, length := some 5, media_type := none,
    hash_ipfs := none, file_name := none, local_path := none }

def get404 : String → Response := fun _ => { status_code := 404, text := "not found" }

def get200 : String → Response := fun _ => { status_code := 200, text := "<rss/>" }

/-! ### Dictionary lemmas -/

theorem mem_dictKeys {α : Type} (m : List (String × α)) (k : String) :
    k ∈ dictKeys m ↔ m.any (fun p => p.1 = k) = true := by
  unfold dictKeys
  rw [List.any_eq_true]
  constructor
  · intro h
    rcases List.mem_map.mp h with ⟨p, hp, rfl⟩
    exact ⟨p, hp, by simp⟩
  · rintro ⟨p, hp, hpk⟩
    simp only [decide_eq_true_eq] at hpk
    exact List.mem_map.mpr ⟨p, hp, hpk⟩

theorem dictKeys_map_replace {α : Type} (m : List (String × α)) (k : String) (v : α) :
    dictKeys (m.map (fun p => if p.1 = k then (k, v) else p)) = dictKeys m := by
  induction m with
  | nil => rfl
  | cons p m ih =>
      simp only [dictKeys, List.map_cons] at *
      by_cases h : p.1 = k
      · simp [h, ih]
      · simp [h, ih]

theorem dictKeys_dictInsert {α : Type} (m : List (String × α)) (k : String) (v : α) :
    dictKeys (dictInsert m k v) =
      if k ∈ dictKeys m then dictKeys m else dictKeys m ++ [k] := by
  unfold dictInsert
  by_cases h : k ∈ dictKeys m
  · rw [if_pos ((mem_dictKeys m k).mp h), if_pos h, dictKeys_map_replace]
  · rw [if_neg (fun hc => h ((mem_dictKeys m k).mpr hc)), if_neg h]
    simp [dictKeys]

theorem mem_dictKeys_dictInsert {α : Type} (m : List (String × α)) (k : String) (v : α)
    (g : String) : g ∈ dictKeys (dictInsert m k v) ↔ g = k ∨ g ∈ dictKeys m := by
  rw [dictKeys_dictInsert]
  by_cases h : k ∈ dictKeys m
  · simp only [if_pos h]
    constructor
    · exact fun hg => Or.inr hg
    · rintro (rfl | hg)
      · exact h
      · exact hg
  · simp [if_neg h, or_comm]

theorem find?_replace_self {α : Type} (m : List (String × α)) (k : String) (v : α)
    (h : m.any (fun p => p.1 = k) = true) :
    (m.map (fun p => if p.1 = k then (k, v) else p)).find? (fun p => p.1 = k) =
      some (k, v) := by
  induction m with
  | nil => simp at h
  | cons p m ih =>
      by_cases hp : p.1 = k
      · simp [List.find?, hp]
      · have h' : m.any (fun p => p.1 = k) = true := by
          simp [List.any_cons, hp] at h
          simpa [List.any_eq_true] using h
        simp [List.find?, hp, ih h']

theorem find?_replace_ne {α : Type} (m : List (String × α)) (k : String) (v : α)
    (g : String) (hne : g ≠ k) :
    (m.map (fun p => if p.1 = k then (k, v) else p)).find? (fun p => p.1 = g) =
      m.find? (fun p => p.1 = g) := by
  induction m with
  | nil => rfl
  | cons p m ih =>
      by_cases hp : p.1 = k
      · have hkg : ¬ (k = g) := fun hc => hne hc.symm
        have hpg : ¬ (p.1 = g) := by rw [hp]; exact hkg
        simp [List.find?, hp, hkg, hpg, ih]
      · by_cases hpg : p.1 = g
        · simp [List.find?, hp, hpg, hne]
        · simp [List.find?, hp, hpg, ih]

theorem dictGet_dictInsert {α : Type} (m : List (String × α)) (k : String) (v : α)
    (g : String) :
    dictGet (dictInsert m k v) g = if g = k then some v else dictGet m g := by
  unfold dictInsert dictGet
  by_cases h : m.any (fun p => p.1 = k) = true
  · rw [if_pos h]
    by_cases hg : g = k
    · subst hg
      rw [if_pos rfl, find?_replace_self m g v h]
      rfl
    · rw [if_neg hg, find?_replace_ne m k v g hg]
  · rw [if_neg h]
    rw [List.find?_append]
    by_cases hg : g = k
    · subst hg
      have hnone : m.find? (fun p => p.1 = g) = none := by
        rw [List.find?_eq_none]
        intro p hp
        simp only [decide_eq_true_eq]
        intro hc
        exact h (List.any_eq_true.mpr ⟨p, hp, by simp [hc]⟩)
      simp [hnone, List.find?]
    · have hkg : ¬ (k = g) := fun hc => hg hc.symm
      have hsing : (([(k, v)] : List (String × α)).find? (fun p => p.1 = g)) = none := by
        simp [List.find?, hkg]
      rw [hsing, Option.or_none, if_neg hg]

theorem nodup_dictKeys_dictInsert {α : Type} (m : List (String × α)) (k : String)
    (v : α) (h : (dictKeys m).Nodup) : (dictKeys (dictInsert m k v)).Nodup := by
  rw [dictKeys_dictInsert]
  by_cases hk : k ∈ dictKeys m
  · simpa [hk] using h
  · simp [hk, List.nodup_append, h]

theorem mem_dictInsert {α : Type} (P : String × α → Prop) (m : List (String × α))
    (k : String) (v : α) (hm : ∀ p ∈ m, P p) (hkv : P (k, v)) :
    ∀ p ∈ dictInsert m k v, P p := by
  intro p hp
  unfold dictInsert at hp
  by_cases h : m.any (fun q => q.1 = k) = true
  · rw [if_pos h] at hp
    rcases List.mem_map.mp hp with ⟨q, hq, rfl⟩
    by_cases hqk : q.1 = k
    · simpa [hqk] using hkv
    · simpa [hqk] using hm q hq
  · rw [if_neg h] at hp
    rcases List.mem_append.mp hp with hq | hq
    · exact hm p hq
    · simpa [List.mem_singleton.mp hq] using hkv

/-! ### Characterization of `extractItem` -/

theorem extractItem_indexable (item : Element) (g : String) (enc : Element)
    (hg : itemGuid item = some g) (hne : g ≠ "")
    (henc : find_child item "enclosure" = some enc) :
    extractItem item =
      match parseLengthAttr enc with
      | .error e => .error e
      | .ok len => .ok (some (g, builtResource g enc len)) := by
  simp only [extractItem, hg, henc]
  rw [if_neg hne]
  cases hp : parseLengthAttr enc <;> simp [builtResource]

theorem extractItem_ok_some (item : Element) (g : String) (r : MediaResource)
    (h : extractItem item = .ok (some (g, r))) :
    ∃ enc, itemGuid item = some g ∧ g ≠ "" ∧ find_child item "enclosure" = some enc ∧
      ∃ len, parseLengthAttr enc = .ok len ∧ r = builtResource g enc len := by
  cases hgu : itemGuid item with
  | none =>
      simp only [extractItem, hgu] at h
      simp at h
  | some g' =>
      cases henc : find_child item "enclosure" with
      | none =>
          simp only [extractItem, hgu, henc] at h
          simp at h
      | some enc =>
          simp only [extractItem, hgu, henc] at h
          by_cases hne : g' = ""
          · rw [if_pos hne] at h
            simp at h
          · rw [if_neg hne] at h
            cases hp : parseLengthAttr enc with
            | error e => rw [hp] at h; simp at h
            | ok len =>
                rw [hp] at h
                have hinj := Option.some.inj (Except.ok.inj h)
                have hg' : g' = g := congrArg Prod.fst hinj
                have hr := congrArg Prod.snd hinj
                subst hg'
                exact ⟨enc, rfl, hne, rfl, len, hp, hr.symm⟩

theorem not_indexable_of_guid_none (item : Element) (h : itemGuid item = none) :
    ∀ g, ¬ indexable item g := by
  rintro g ⟨h1, -, -⟩
  rw [h] at h1
  cases h1

theorem not_indexable_of_enc_none (item : Element)
    (h : find_child item "enclosure" = none) : ∀ g, ¬ indexable item g := by
  rintro g ⟨-, -, h3⟩
  rw [h] at h3
  cases h3

theorem not_indexable_of_guid_empty (item : Element) (h : itemGuid item = some "") :
    ∀ g, ¬ indexable item g := by
  rintro g ⟨h1, h2, -⟩
  rw [h] at h1
  exact h2 (Option.some.inj h1).symm

theorem extractItem_not_indexable (item : Element)
    (h : ∀ g, ¬ indexable item g) : extractItem item = .ok none := by
  cases hgu : itemGuid item with
  | none =>
      cases henc : find_child item "enclosure" <;> simp [extractItem, hgu, henc]
  | some g =>
      cases henc : find_child item "enclosure" with
      | none => simp [extractItem, hgu, henc]
      | some enc =>
          by_cases hne : g = ""
          · simp [extractItem, hgu, henc, hne]
          · exact absurd ⟨hgu, hne, by rw [henc]; rfl⟩ (h g)

theorem parseLengthAttr_ok (enc : Element)
    (h : ∀ s, attribGet enc "length" = some s → s ≠ "" ∧ (pyInt s).isSome = true) :
    ∃ len, parseLengthAttr enc = .ok len := by
  cases ha : attribGet enc "length" with
  | none => exact ⟨none, by simp [parseLengthAttr, ha]⟩
  | some s =>
      obtain ⟨hne, hsome⟩ := h s ha
      cases hp : pyInt s with
      | none => rw [hp] at hsome; cases hsome
      | some n => exact ⟨some n, by simp [parseLengthAttr, ha, hne, hp]⟩

/-! ### Fold lemmas for the extraction loop -/

theorem except_bind_ok {α β : Type} (a : α) (f : α → Except String β) :
    (Except.ok a >>= f : Except String β) = f a := rfl

theorem except_bind_error {α β : Type} (e : String) (f : α → Except String β) :
    (Except.error e >>= f : Except String β) = Except.error e := rfl

theorem foldlM_extractStep_cons (item : Element) (l : List Element)
    (m m' : List (String × MediaResource)) :
    ((item :: l).foldlM extractStep m = .ok m') ↔
      ∃ m1, extractStep m item = .ok m1 ∧ l.foldlM extractStep m1 = .ok m' := by
  rw [List.foldlM_cons]
  cases hs : extractStep m item with
  | error e => rw [except_bind_error]; simp
  | ok m1 =>
      rw [except_bind_ok]
      constructor
      · intro h; exact ⟨m1, rfl, h⟩
      · rintro ⟨m2, hm2, h⟩
        rw [← Except.ok.inj hm2] at h
        exact h

theorem extractStep_ok_cases (m : List (String × MediaResource)) (item : Element)
    (m' : List (String × MediaResource)) (h : extractStep m item = .ok m') :
    (extractItem item = .ok none ∧ m' = m) ∨
      ∃ g r, extractItem item = .ok (some (g, r)) ∧ m' = dictInsert m g r := by
  unfold extractStep at h
  cases he : extractItem item with
  | error e =>
      simp only [he] at h
      exact Except.noConfusion h
  | ok o =>
      cases o with
      | none =>
          simp only [he] at h
          exact Or.inl ⟨rfl, (Except.ok.inj h).symm⟩
      | some p =>
          obtain ⟨g, r⟩ := p
          simp only [he] at h
          exact Or.inr ⟨g, r, rfl, (Except.ok.inj h).symm⟩

theorem extractStep_of_extractItem (m : List (String × MediaResource))
    (item : Element) (g : String) (r : MediaResource)
    (h : extractItem item = .ok (some (g, r))) :
    extractStep m item = .ok (dictInsert m g r) := by
  unfold extractStep
  rw [h]

theorem extractStep_of_skip (m : List (String × MediaResource)) (item : Element)
    (h : extractItem item = .ok none) : extractStep m item = .ok m := by
  unfold extractStep
  rw [h]

theorem foldlM_extractStep_inv (P : List (String × MediaResource) → Prop)
    (hstep : ∀ m item m', P m → extractStep m item = .ok m' → P m') :
    ∀ (l : List Element) (m m' : List (String × MediaResource)),
      P m → l.foldlM extractStep m = .ok m' → P m' := by
  intro l
  induction l with
  | nil =>
      intro m m' hP h
      rw [List.foldlM_nil] at h
      rw [show (pure m : Except String (List (String × MediaResource))) = .ok m from rfl] at h
      rw [← Except.ok.inj h]
      exact hP
  | cons item l ih =>
      intro m m' hP h
      rcases (foldlM_extractStep_cons item l m m').mp h with ⟨m1, hs, h'⟩
      exact ih m1 m' (hstep m item m1 hP hs) h'

theorem foldlM_extractStep_all_ok :
    ∀ (l : List Element) (m m' : List (String × MediaResource)),
      l.foldlM extractStep m = .ok m' → ∀ item ∈ l, ∃ o, extractItem item = .ok o := by
  intro l
  induction l with
  | nil => intro m m' _ item hmem; cases hmem
  | cons it l ih =>
      intro m m' h item hmem
      rcases (foldlM_extractStep_cons it l m m').mp h with ⟨m1, hs, h'⟩
      rcases List.mem_cons.mp hmem with rfl | hmem'
      · rcases extractStep_ok_cases m item m1 hs with ⟨he, -⟩ | ⟨g, r, he, -⟩
        · exact ⟨none, he⟩
        · exact ⟨some (g, r), he⟩
      · exact ih m1 m' h' item hmem'

theorem foldlM_extractStep_get :
    ∀ (l : List Element) (m m' : List (String × MediaResource)),
      l.foldlM extractStep m = .ok m' →
      ∀ g, dictGet m' g = l.foldl (updFor g) (dictGet m g) := by
  intro l
  induction l with
  | nil =>
      intro m m' h g
      rw [List.foldlM_nil] at h
      rw [show (pure m : Except String (List (String × MediaResource))) = .ok m from rfl] at h
      rw [← Except.ok.inj h]
      rfl
  | cons item l ih =>
      intro m m' h g
      rcases (foldlM_extractStep_cons item l m m').mp h with ⟨m1, hs, h'⟩
      rw [List.foldl_cons, ih m1 m' h' g]
      have hstep : dictGet m1 g = updFor g (dictGet m g) item := by
        rcases extractStep_ok_cases m item m1 hs with ⟨he, rfl⟩ | ⟨g', r, he, rfl⟩
        · simp only [updFor, he]
        · simp only [updFor, he, dictGet_dictInsert]
          by_cases hgg : g' = g
          · subst hgg
            rw [if_pos rfl]
          · rw [if_neg hgg, if_neg (fun hc => hgg hc.symm)]
      rw [hstep]

theorem dictGet_isSome {α : Type} (m : List (String × α)) (g : String) :
    (dictGet m g).isSome = true ↔ g ∈ dictKeys m := by
  induction m with
  | nil => simp [dictGet, dictKeys]
  | cons p m ih =>
      by_cases hp : p.1 = g
      · simp [dictGet, dictKeys, hp]
      · have h1 : dictGet (p :: m) g = dictGet m g := by
          unfold dictGet
          rw [List.find?_cons_of_neg _ (by simp [hp])]
        rw [h1]
        have h2 : (g ∈ dictKeys (p :: m)) ↔ g ∈ dictKeys m := by
          unfold dictKeys
          rw [List.map_cons, List.mem_cons]
          constructor
          · rintro (hc | hmem)
            · exact absurd hc.symm hp
            · exact hmem
          · exact Or.inr
        rw [h2]
        exact ih

theorem updFor_eq_or (g : String) (acc : Option MediaResource) (item : Element) :
    updFor g acc item = (extractedFor g item).or acc := by
  unfold updFor extractedFor
  cases he : extractItem item with
  | error e => simp
  | ok o =>
      cases o with
      | none => simp
      | some p =>
          obtain ⟨g', r⟩ := p
          by_cases hgg : g' = g <;> simp [hgg]

theorem foldl_updFor_getLast (g : String) :
    ∀ (l : List Element) (acc : Option MediaResource),
      l.foldl (updFor g) acc = ((l.filterMap (extractedFor g)).getLast?).or acc := by
  intro l
  induction l with
  | nil => intro acc; simp
  | cons item l ih =>
      intro acc
      rw [List.foldl_cons, ih, updFor_eq_or]
      cases hf : extractedFor g item with
      | none => rw [List.filterMap_cons_none hf, Option.none_or]
      | some r =>
          rw [List.filterMap_cons_some hf, Option.or_some]
          cases hL : l.filterMap (extractedFor g) with
          | nil => simp
          | cons b L =>
              rw [List.getLast?_cons_cons]
              obtain ⟨x, hx⟩ := Option.isSome_iff_exists.mp
                (List.getLast?_isSome.mpr (List.cons_ne_nil b L))
              rw [hx, Option.or_some, Option.or_some]

/-! ### Global lemmas about the extraction call -/

theorem parse_get (root : Element) (m : List (String × MediaResource))
    (h : parse_enclosure_map_from_etree root = .ok m) (g : String) :
    dictGet m g = ((itemsOf root).filterMap (extractedFor g)).getLast? := by
  have h1 := foldlM_extractStep_get (itemsOf root) [] m h g
  rw [h1]
  rw [show dictGet ([] : List (String × MediaResource)) g = none from rfl]
  rw [foldl_updFor_getLast, Option.or_none]

theorem parse_all_ok (root : Element) (m : List (String × MediaResource))
    (h : parse_enclosure_map_from_etree root = .ok m) :
    ∀ item ∈ itemsOf root, ∃ o, extractItem item = .ok o :=
  foldlM_extractStep_all_ok (itemsOf root) [] m h

theorem parse_nodup (root : Element) (m : List (String × MediaResource))
    (h : parse_enclosure_map_from_etree root = .ok m) : (dictKeys m).Nodup := by
  refine foldlM_extractStep_inv (fun m0 => (dictKeys m0).Nodup) ?_ (itemsOf root) [] m
    (by simp [dictKeys]) h
  intro m0 item m1 hP hs
  rcases extractStep_ok_cases m0 item m1 hs with ⟨-, rfl⟩ | ⟨g, r, -, rfl⟩
  · exact hP
  · exact nodup_dictKeys_dictInsert m0 g r hP

theorem parse_guid_match (root : Element) (m : List (String × MediaResource))
    (h : parse_enclosure_map_from_etree root = .ok m) :
    ∀ p ∈ m, p.2.guid = p.1 := by
  refine foldlM_extractStep_inv (fun m0 => ∀ p ∈ m0, p.2.guid = p.1) ?_
    (itemsOf root) [] m (by intro p hp; cases hp) h
  intro m0 item m1 hP hs
  rcases extractStep_ok_cases m0 item m1 hs with ⟨-, rfl⟩ | ⟨g, r, he, rfl⟩
  · exact hP
  · refine mem_dictInsert _ m0 g r hP ?_
    rcases extractItem_ok_some item g r he with ⟨enc, -, -, -, len, -, hr⟩
    rw [hr]
    rfl

theorem extractedFor_of_indexable (item : Element) (g : String)
    (hix : indexable item g) (o : Option (String × MediaResource))
    (ho : extractItem item = .ok o) :
    ∃ r, extractedFor g item = some r ∧ extractItem item = .ok (some (g, r)) := by
  obtain ⟨hg, hne, hsome⟩ := hix
  obtain ⟨enc, henc⟩ := Option.isSome_iff_exists.mp hsome
  have heq := extractItem_indexable item g enc hg hne henc
  cases hp : parseLengthAttr enc with
  | error e =>
      rw [hp] at heq
      rw [heq] at ho
      exact Except.noConfusion ho
  | ok len =>
      rw [hp] at heq
      refine ⟨builtResource g enc len, ?_, heq⟩
      simp [extractedFor, heq]

theorem indexable_of_extractedFor (item : Element) (g : String) (r : MediaResource)
    (hf : extractedFor g item = some r) :
    indexable item g ∧ extractItem item = .ok (some (g, r)) := by
  unfold extractedFor at hf
  cases he : extractItem item with
  | error e =>
      simp only [he] at hf
      exact Option.noConfusion hf
  | ok o =>
      cases o with
      | none =>
          simp only [he] at hf
          exact Option.noConfusion hf
      | some p =>
          obtain ⟨g', r'⟩ := p
          simp only [he] at hf
          by_cases hgg : g' = g
          · rw [if_pos hgg] at hf
            obtain rfl := hgg
            obtain rfl := Option.some.inj hf
            rcases extractItem_ok_some item _ _ he with ⟨enc, hg, hne, henc, -⟩
            exact ⟨⟨hg, hne, by rw [henc]; rfl⟩, rfl⟩
          · rw [if_neg hgg] at hf
            exact Option.noConfusion hf

/-- The key set of the returned mapping: exactly the GUIDs of indexable items
found by descendant search. -/
theorem parse_keys (root : Element) (m : List (String × MediaResource))
    (h : parse_enclosure_map_from_etree root = .ok m) (g : String) :
    g ∈ dictKeys m ↔ ∃ item ∈ itemsOf root, indexable item g := by
  rw [← dictGet_isSome, parse_get root m h g]
  constructor
  · intro hsome
    obtain ⟨r, hr⟩ := Option.isSome_iff_exists.mp hsome
    have hmem : r ∈ (itemsOf root).filterMap (extractedFor g) :=
      List.mem_of_getLast?_eq_some hr
    obtain ⟨item, hitem, hf⟩ := List.mem_filterMap.mp hmem
    exact ⟨item, hitem, (indexable_of_extractedFor item g r hf).1⟩
  · rintro ⟨item, hitem, hix⟩
    obtain ⟨o, ho⟩ := parse_all_ok root m h item hitem
    obtain ⟨r, hf, -⟩ := extractedFor_of_indexable item g hix o ho
    have hne : (itemsOf root).filterMap (extractedFor g) ≠ [] := by
      intro hnil
      have := List.filterMap_eq_nil_iff.mp hnil item hitem
      rw [hf] at this
      cases this
    exact List.getLast?_isSome.mpr hne

/-! ### Relating the two shadowed definitions -/

theorem selfAndDesc_eq (e : Element) : selfAndDesc e = e :: strictDesc e := by
  cases e with
  | mk t x a cs => rw [selfAndDesc, strictDesc, Element.children]

theorem filter_selfAndDesc (root : Element) (h : ¬ root.tag = "item") :
    (selfAndDesc root).filter (fun e => e.tag = "item") = itemsOf root := by
  rw [selfAndDesc_eq, itemsOf]
  rw [List.filter_cons]
  simp [h]

theorem extractStepV1_not_indexable (m : List (String × Option String))
    (item : Element) (h : ∀ g, ¬ indexable item g) : extractStepV1 m item = m := by
  cases hgu : itemGuid item with
  | none =>
      cases henc : find_child item "enclosure" <;> simp [extractStepV1, hgu, henc]
  | some g =>
      cases henc : find_child item "enclosure" with
      | none => simp [extractStepV1, hgu, henc]
      | some enc =>
          by_cases hne : g = ""
          · simp [extractStepV1, hgu, henc, hne]
          · exact absurd ⟨hgu, hne, by rw [henc]; rfl⟩ (h g)

theorem extractStepV1_indexable (m : List (String × Option String)) (item : Element)
    (g : String) (enc : Element) (hg : itemGuid item = some g) (hne : g ≠ "")
    (henc : find_child item "enclosure" = some enc) :
    extractStepV1 m item = dictInsert m g (attribGet enc "url") := by
  simp only [extractStepV1, hg, henc]
  rw [if_neg hne]

theorem fold_keys_parallel :
    ∀ (l : List Element) (m1 : List (String × Option String))
      (m2 : List (String × MediaResource)),
      dictKeys m1 = dictKeys m2 →
      (∀ item ∈ l, ∀ enc, find_child item "enclosure" = some enc →
        ∀ s, attribGet enc "length" = some s → s ≠ "" ∧ (pyInt s).isSome = true) →
      ∃ m', l.foldlM extractStep m2 = .ok m' ∧
        dictKeys (l.foldl extractStepV1 m1) = dictKeys m' := by
  intro l
  induction l with
  | nil =>
      intro m1 m2 hk _
      exact ⟨m2, rfl, by simpa using hk⟩
  | cons item l ih =>
      intro m1 m2 hk hlen
      have hlen' : ∀ it ∈ l, ∀ enc, find_child it "enclosure" = some enc →
          ∀ s, attribGet enc "length" = some s → s ≠ "" ∧ (pyInt s).isSome = true :=
        fun it hit => hlen it (List.mem_cons_of_mem _ hit)
      have hskip : (∀ g, ¬ indexable item g) →
          ∃ m', (item :: l).foldlM extractStep m2 = .ok m' ∧
            dictKeys ((item :: l).foldl extractStepV1 m1) = dictKeys m' := by
        intro hni
        obtain ⟨m', hfold, hkeys⟩ := ih m1 m2 hk hlen'
        refine ⟨m', ?_, ?_⟩
        · exact (foldlM_extractStep_cons item l m2 m').mpr
            ⟨m2, extractStep_of_skip m2 item (extractItem_not_indexable item hni), hfold⟩
        · rw [List.foldl_cons, extractStepV1_not_indexable m1 item hni]
          exact hkeys
      cases hgu : itemGuid item with
      | none => exact hskip (not_indexable_of_guid_none item hgu)
      | some g =>
          cases henc : find_child item "enclosure" with
          | none => exact hskip (not_indexable_of_enc_none item henc)
          | some enc =>
              by_cases hne : g = ""
              · subst hne
                exact hskip (not_indexable_of_guid_empty item hgu)
              · obtain ⟨len, hp⟩ :=
                  parseLengthAttr_ok enc (hlen item (List.mem_cons_self item l) enc henc)
                have he : extractItem item = .ok (some (g, builtResource g enc len)) := by
                  have heq := extractItem_indexable item g enc hgu hne henc
                  simp only [hp] at heq
                  exact heq
                have hk' : dictKeys (dictInsert m1 g (attribGet enc "url")) =
                    dictKeys (dictInsert m2 g (builtResource g enc len)) := by
                  rw [dictKeys_dictInsert, dictKeys_dictInsert, hk]
                obtain ⟨m', hfold, hkeys⟩ := ih _ _ hk' hlen'
                refine ⟨m', ?_, ?_⟩
                · exact (foldlM_extractStep_cons item l m2 m').mpr
                    ⟨dictInsert m2 g (builtResource g enc len),
                      extractStep_of_extractItem m2 item g (builtResource g enc len) he,
                      hfold⟩
                · rw [List.foldl_cons,
                      extractStepV1_indexable m1 item g enc hgu hne henc]
                  exact hkeys

/-! ### The specified properties -/

/-- C1: for every well-formed feed document, the mapping returned by
`parse_enclosure_map_from_etree` has key set exactly the GUID texts of `item`
elements found by descendant search that have a direct `guid` child with
non-empty text and a direct `enclosure` child. -/
theorem c1_key_set (root : Element) (m : List (String × MediaResource))
    (h : parse_enclosure_map_from_etree root = .ok m) (g : String) :
    g ∈ dictKeys m ↔ ∃ item ∈ itemsOf root,
      itemGuid item = some g ∧ g ≠ "" ∧ (find_child item "enclosure").isSome :=
  parse_keys root m h g

/-- Witness for C1 at the one-item feed `docOne`. -/
theorem c1_key_set_witness :
    "ep1" ∈ dictKeys [("ep1", mrOne)] ↔ ∃ item ∈ itemsOf docOne,
      itemGuid item = some "ep1" ∧ "ep1" ≠ "" ∧
        (find_child item "enclosure").isSome :=
  c1_key_set docOne [("ep1", mrOne)] rfl "ep1"

/-- C2: the code violates this claim.  An enclosure `length` attribute that is
present, non-empty and not parseable as an integer makes `int()` raise an
uncaught `ValueError` inside the loop, aborting the whole mapping instead of
scoping the failure to that item. -/
theorem c2_value_error_aborts :
    parse_enclosure_map_from_etree docBadLength = .error "ValueError" := rfl

/-- C3 counterexample: on the feed whose single item carries `length="0"`, the
returned entry has `length = some 0` (the integer zero), not `none`: the claim
that `"0"` is treated as falsy is false on the code, since `attrib.get` yields
the non-empty (hence truthy) string `"0"`. -/
theorem c3_counterexample :
    (parse_enclosure_map_from_etree docZero).map
        (fun m => (dictGet m "g").map MediaResource.length) =
      .ok (some (some (0 : Int))) := rfl

/-- C3 (amended): a `length` attribute equal to `"0"` is a non-empty string,
hence truthy; the code parses it with `int()` and records `length = some 0`
rather than leaving it unset. -/
theorem c3_zero_length_parsed (item : Element) (g : String) (enc : Element)
    (hg : itemGuid item = some g) (hne : g ≠ "")
    (henc : find_child item "enclosure" = some enc)
    (hlen : attribGet enc "length" = some "0") :
    extractItem item = .ok (some (g, builtResource g enc (some 0))) ∧
      (builtResource g enc (some 0)).length = some 0 := by
  have hpy : pyInt "0" = some 0 := rfl
  have hp : parseLengthAttr enc = .ok (some 0) := by
    simp [parseLengthAttr, hlen, hpy]
  have heq := extractItem_indexable item g enc hg hne henc
  simp only [hp] at heq
  exact ⟨heq, rfl⟩

/-- Witness for the amended C3 at the item carrying `length="0"`. -/
theorem c3_zero_length_parsed_witness :
    extractItem itemZero = .ok (some ("g", builtResource "g" encZero (some 0))) ∧
      (builtResource "g" encZero (some 0)).length = some 0 :=
  c3_zero_length_parsed itemZero "g" encZero rfl (by decide) rfl rfl

/-- C4: GUIDs are unique keys of the output mapping, and the entry stored under
`g` is the resource extracted from the last item in document order whose
extraction yields GUID `g` (last write wins). -/
theorem c4_last_write_wins (root : Element) (m : List (String × MediaResource))
    (h : parse_enclosure_map_from_etree root = .ok m) :
    (dictKeys m).Nodup ∧
      ∀ g, dictGet m g = ((itemsOf root).filterMap (extractedFor g)).getLast? :=
  ⟨parse_nodup root m h, parse_get root m h⟩

/-- Witness for C4 at the feed with two items sharing GUID "g": the entry is
the one built from the second item (`url = "u2"`). -/
theorem c4_last_write_wins_witness :
    (dictKeys [("g", mrDup2)]).Nodup ∧ dictGet [("g", mrDup2)] "g" = some mrDup2 :=
  ⟨(c4_last_write_wins docDup [("g", mrDup2)] rfl).1,
    ((c4_last_write_wins docDup [("g", mrDup2)] rfl).2 "g").trans rfl⟩

/-- C5: `retreive_podcast_xml` raises `HTTPError` whenever the response status
code is a 4xx/5xx client or server failure, and returns the response body text
on a successful (2xx) response. -/
theorem c5_fetch_raises_on_failure (get : String → Response) (url : String) :
    (400 ≤ (get url).status_code ∧ (get url).status_code < 600 →
        retreive_podcast_xml get url = .error "HTTPError") ∧
    (200 ≤ (get url).status_code ∧ (get url).status_code < 300 →
        retreive_podcast_xml get url = .ok (get url).text) := by
  constructor
  · intro hcode
    simp [retreive_podcast_xml, raise_for_status, hcode]
  · intro hcode
    have hnot : ¬ (400 ≤ (get url).status_code ∧ (get url).status_code < 600) := by
      obtain ⟨h1, h2⟩ := hcode
      omega
    simp [retreive_podcast_xml, raise_for_status, hnot]

/-- Witness for C5: a 404 response raises, a 200 response returns its body. -/
theorem c5_fetch_raises_on_failure_witness :
    retreive_podcast_xml get404 "http://example.com/feed" = .error "HTTPError" ∧
    retreive_podcast_xml get200 "http://example.com/feed" = .ok "<rss/>" :=
  ⟨(c5_fetch_raises_on_failure get404 "http://example.com/feed").1 (by decide),
    (c5_fetch_raises_on_failure get200 "http://example.com/feed").2 (by decide)⟩

/-- C6: an item with a non-empty GUID whose enclosure lacks a `url` attribute
is still recorded: its GUID is a key of the mapping and the built
`MediaResource` has `url = none`. -/
theorem c6_url_none_recorded (root : Element) (m : List (String × MediaResource))
    (item : Element) (g : String) (enc : Element)
    (h : parse_enclosure_map_from_etree root = .ok m)
    (hmem : item ∈ itemsOf root) (hg : itemGuid item = some g) (hne : g ≠ "")
    (henc : find_child item "enclosure" = some enc)
    (hurl : attribGet enc "url" = none) :
    g ∈ dictKeys m ∧ ∃ r, extractItem item = .ok (some (g, r)) ∧ r.url = none := by
  have hix : indexable item g := ⟨hg, hne, by rw [henc]; rfl⟩
  constructor
  · exact (parse_keys root m h g).mpr ⟨item, hmem, hix⟩
  · obtain ⟨o, ho⟩ := parse_all_ok root m h item hmem
    obtain ⟨r, -, he⟩ := extractedFor_of_indexable item g hix o ho
    refine ⟨r, he, ?_⟩
    rcases extractItem_ok_some item g r he with ⟨enc', -, -, henc', len, -, hr⟩
    have hee : enc' = enc := by
      rw [henc] at henc'
      exact (Option.some.inj henc').symm
    subst hee
    rw [hr]
    simp [builtResource, hurl]

/-- Witness for C6 at the feed whose enclosure has no `url` attribute. -/
theorem c6_url_none_recorded_witness :
    "g" ∈ dictKeys [("g", mrNoUrl)] ∧
      ∃ r, extractItem itemNoUrl = .ok (some ("g", r)) ∧ r.url = none :=
  c6_url_none_recorded docNoUrl [("g", mrNoUrl)] itemNoUrl "g" encNoUrl rfl
    (List.mem_cons_self itemNoUrl []) rfl (by decide) rfl rfl

/-- C7: for an indexable item, a missing `length` attribute yields an unset
length, `length="12345"` yields the integer 12345, and the `media_type` field
always equals the enclosure's `type` attribute lookup (`none` when absent). -/
theorem c7_length_and_type (item : Element) (g : String) (enc : Element)
    (hg : itemGuid item = some g) (hne : g ≠ "")
    (henc : find_child item "enclosure" = some enc) :
    (attribGet enc "length" = none →
        extractItem item = .ok (some (g, builtResource g enc none)) ∧
          (builtResource g enc none).length = none) ∧
    (attribGet enc "length" = some "12345" →
        extractItem item = .ok (some (g, builtResource g enc (some 12345))) ∧
          (builtResource g enc (some 12345)).length = some 12345) ∧
    (∀ g' r, extractItem item = .ok (some (g', r)) →
        r.media_type = attribGet enc "type") := by
  refine ⟨?_, ?_, ?_⟩
  · intro hlen
    have hp : parseLengthAttr enc = .ok none := by
      simp [parseLengthAttr, hlen]
    have heq := extractItem_indexable item g enc hg hne henc
    simp only [hp] at heq
    exact ⟨heq, rfl⟩
  · intro hlen
    have hpy : pyInt "12345" = some 12345 := rfl
    have hp : parseLengthAttr enc = .ok (some 12345) := by
      simp [parseLengthAttr, hlen, hpy]
    have heq := extractItem_indexable item g enc hg hne henc
    simp only [hp] at heq
    exact ⟨heq, rfl⟩
  · intro g' r he
    rcases extractItem_ok_some item g' r he with ⟨enc', -, -, henc', len, -, hr⟩
    have hee : enc' = enc := by
      rw [henc] at henc'
      exact (Option.some.inj henc').symm
    subst hee
    rw [hr]
    rfl

/-- Witness for C7 at an item without a `length` attribute and an item with
`length="12345"`. -/
theorem c7_length_and_type_witness :
    (extractItem itemNoLen = .ok (some ("g", builtResource "g" encNoLen none))) ∧
    (extractItem item12345 = .ok (some ("g", builtResource "g" enc12345 (some 12345)))) :=
  ⟨((c7_length_and_type itemNoLen "g" encNoLen rfl (by decide) rfl).1 rfl).1,
    ((c7_length_and_type item12345 "g" enc12345 rfl (by decide) rfl).2.1 rfl).1⟩

/-- C8: loading a feed from a file whose contents are `podcast_str` and loading
`podcast_str` directly as a string produce document trees with identical
extraction results. -/
theorem c8_round_trip (xmlParse : String → Element) (fileContents : String → String)
    (file_path podcast_str : String) (h : fileContents file_path = podcast_str) :
    parse_enclosure_map_from_etree
        (load_podcast_file_into_etree xmlParse fileContents file_path) =
      parse_enclosure_map_from_etree
        (load_podcast_str_into_etree xmlParse podcast_str) := by
  unfold load_podcast_file_into_etree load_podcast_str_into_etree
  rw [h]

/-- Witness for C8 with a concrete parser and file system. -/
theorem c8_round_trip_witness :
    parse_enclosure_map_from_etree
        (load_podcast_file_into_etree (fun _ => docOne) (fun _ => "<rss/>") "feed.xml") =
      parse_enclosure_map_from_etree
        (load_podcast_str_into_etree (fun _ => docOne) "<rss/>") :=
  c8_round_trip (fun _ => docOne) (fun _ => "<rss/>") "feed.xml" "<rss/>" rfl

/-- C9: in every returned mapping, the resource stored under key `k` has its
`guid` field equal to `k`. -/
theorem c9_guid_equals_key (root : Element) (m : List (String × MediaResource))
    (h : parse_enclosure_map_from_etree root = .ok m) :
    ∀ k r, dictGet m k = some r → r.guid = k := by
  intro k r hk
  unfold dictGet at hk
  obtain ⟨p, hfind, hp2⟩ := Option.map_eq_some'.mp hk
  have hmem : p ∈ m := List.mem_of_find?_eq_some hfind
  have hp1 : p.1 = k := by
    have := List.find?_some hfind
    simpa using this
  rw [← hp2, ← hp1]
  exact parse_guid_match root m h p hmem

/-- Witness for C9 at the one-item feed `docOne`. -/
theorem c9_guid_equals_key_witness : mrOne.guid = "ep1" :=
  c9_guid_equals_key docOne [("ep1", mrOne)] rfl "ep1" mrOne rfl

/-- C10 counterexample: on the document whose root element is itself an `item`
(with GUID "g", an enclosure, and no `length` attribute anywhere, so every
length is vacuously parseable), the first definition returns the key "g" while
the second returns the empty mapping: `iter('item')` visits the root element
itself and `iterfind('.//item')` does not. -/
theorem c10_counterexample :
    dictKeys (parse_enclosure_map_from_etree_v1 docRootItem) = ["g"] ∧
    parse_enclosure_map_from_etree docRootItem = .ok [] ∧
    (selfAndDesc docRootItem).all (fun e => (attribGet e "length").isNone) = true :=
  ⟨rfl, rfl, rfl⟩

/-- C10 (amended): provided the document's root element is not itself tagged
`item`, and every enclosure `length` attribute of a visited item is non-empty
and parseable, the second definition succeeds and the two shadowed definitions
produce mappings with the same key list. -/
theorem c10_same_keys (root : Element) (hroot : ¬ root.tag = "item")
    (hlen : ∀ item ∈ itemsOf root, ∀ enc, find_child item "enclosure" = some enc →
        ∀ s, attribGet enc "length" = some s → s ≠ "" ∧ (pyInt s).isSome = true) :
    ∃ m, parse_enclosure_map_from_etree root = .ok m ∧
      dictKeys (parse_enclosure_map_from_etree_v1 root) = dictKeys m := by
  obtain ⟨m, hfold, hkeys⟩ := fold_keys_parallel (itemsOf root) [] [] rfl hlen
  refine ⟨m, hfold, ?_⟩
  unfold parse_enclosure_map_from_etree_v1
  rw [filter_selfAndDesc root hroot]
  exact hkeys

/-- Witness for the amended C10 at the one-item feed `docOne`. -/
theorem c10_same_keys_witness :
    ∃ m, parse_enclosure_map_from_etree docOne = .ok m ∧
      dictKeys (parse_enclosure_map_from_etree_v1 docOne) = dictKeys m := by
  refine c10_same_keys docOne (by decide) ?_
  intro item hmem enc henc s hs
  have hitem : item = itemOne := List.mem_singleton.mp hmem
  subst hitem
  have hfc : find_child itemOne "enclosure" = some encOne := rfl
  rw [hfc] at henc
  obtain rfl := (Option.some.inj henc).symm
  have ha : attribGet encOne "length" = some "100" := rfl
  rw [ha] at hs
  obtain rfl := (Option.some.inj hs).symm
  exact ⟨by decide, rfl⟩

end PodcastTools
